import Mathlib

/-!
Verification of the resumable paginated EAEU ODATA export engine
(`download_eaeu_odata_csv.py`) against its specification.

The Python source is shallowly embedded: JSON values become an inductive
type, pure helper functions become Lean functions, and the page-walking
loop of `stream_country` becomes an explicit step function on a state
record driven by an abstract deterministic server.
-/

/-- JSON-like Python values: `None`, booleans, integers, strings,
lists and dicts (dicts as association lists, first binding wins). -/
inductive Json where
  | null : Json
  | bool : Bool → Json
  | int : Int → Json
  | str : String → Json
  | arr : List Json → Json
  | obj : List (String × Json) → Json
deriving Repr

/-- Python truthiness for JSON-like values: `None`, `False`, `0`, `""`,
`[]` and `{}` are falsy, everything else truthy. -/
def truthy : Json → Bool
  | .null => false
  | .bool b => b
  | .int n => n != 0
  | .str s => s ≠ ""
  | .arr xs => !xs.isEmpty
  | .obj kvs => !kvs.isEmpty

/-- First binding of a key in an association-list dict. -/
def lookupKey (kvs : List (String × Json)) (k : String) : Option Json :=
  match kvs with
  | [] => none
  | (k2, v) :: rest => if k2 = k then some v else lookupKey rest k

/-- Python `dict.get(k)`: the bound value, or `None` when the key is absent. -/
def dictGet (kvs : List (String × Json)) (k : String) : Json :=
  match lookupKey kvs k with
  | some v => v
  | none => .null

/-- Python `a or b` on JSON-like values. -/
def pyOr (a b : Json) : Json :=
  if truthy a then a else b

/-- Embedding of `odata_extract_records` (src/download_eaeu_odata_csv.py,
lines 483-497): a list payload is returned as is; a dict payload yields the
`or`-chain over the keys `value`, `Value`, `result`, `Result`, `data`,
`items` with default `[]`, wrapped as a singleton unless already a list;
any other payload is wrapped as a singleton. -/
def odata_extract_records (payload : Json) : List Json :=
  match payload with
  | .arr xs => xs
  | .obj kvs =>
      let data :=
        pyOr (dictGet kvs "value")
          (pyOr (dictGet kvs "Value")
            (pyOr (dictGet kvs "result")
              (pyOr (dictGet kvs "Result")
                (pyOr (dictGet kvs "data")
                  (pyOr (dictGet kvs "items") (.arr []))))))
      match data with
      | .arr xs => xs
      | v => [v]
  | v => [v]

/-- The key preference order named by the spec for wrapped ODATA payloads. -/
def odataKeys : List String :=
  ["value", "Value", "result", "Result", "data", "items"]

/-- Specification-side reading of the dict case: the first truthy value
among the given keys, if any. -/
def firstTruthyKey (kvs : List (String × Json)) : List String → Option Json
  | [] => none
  | k :: ks =>
      let v := dictGet kvs k
      if truthy v then some v else firstTruthyKey kvs ks

/-- Result shape dictated by the claim for a dict payload. -/
def extractSpecObj (kvs : List (String × Json)) : List Json :=
  match firstTruthyKey kvs odataKeys with
  | some (.arr xs) => xs
  | some v => [v]
  | none => []

/-- Scalar (non-container) JSON values: `None`, booleans, numbers, strings. -/
def Json.isScalar : Json → Bool
  | .null => true
  | .bool _ => true
  | .int _ => true
  | .str _ => true
  | .arr _ => false
  | .obj _ => false

/-- The sentinel tokens that `flatten_for_humans` maps to the empty string
(src line 544). -/
def emptyTokens : List String := ["None", "nan", "NaN", "null", "[]", "\x7b\x7d"]

/-- Python `str(value)` on the scalar values that can reach the scalar
branch of `flatten_for_humans` (lists and dicts are handled earlier and
never stringified there). -/
def pyScalarStr : Json → String
  | .bool true => "True"
  | .bool false => "False"
  | .int n => toString n
  | .str s => s
  | _ => ""

/-- Python `str.strip()`: drop leading and trailing whitespace. -/
def pyStrip (s : String) : String :=
  ⟨(((s.data.dropWhile Char.isWhitespace).reverse.dropWhile Char.isWhitespace).reverse)⟩

/-- The text `str(value).strip() if value is not None else ""` computed by
the scalar branch of `flatten_for_humans` (src line 543). -/
def scalarText : Json → String
  | .null => ""
  | v => pyStrip (pyScalarStr v)

/-- Map the designated sentinel tokens to the empty string (src lines 544-546). -/
def sentinelToEmpty (text : String) : String :=
  if text ∈ emptyTokens then "" else text

/-- Python `sep.join(items)`. -/
def joinWith (sep : String) : List String → String
  | [] => ""
  | [x] => x
  | x :: y :: rest => x ++ sep ++ joinWith sep (y :: rest)

mutual

/-- Embedding of `flatten_for_humans` (src lines 527-546): lists flatten
elementwise, drop empties and join with " | "; dicts emit "key: value" for
entries with non-empty flattened value, joined with "; "; scalars are
stringified, trimmed, and the designated sentinel tokens become "". -/
def flatten_for_humans : Json → String
  | .arr xs =>
      if xs.isEmpty then ""
      else joinWith " | " ((flattenList xs).filter (fun s => s ≠ ""))
  | .obj kvs => joinWith "; " (flattenParts kvs)
  | v => sentinelToEmpty (scalarText v)

/-- Flattened images of the elements of a list (the list comprehension of
src line 531). -/
def flattenList : List Json → List String
  | [] => []
  | x :: xs => flatten_for_humans x :: flattenList xs

/-- The "key: value" parts kept for a dict (src lines 536-540): entries
whose flattened value is empty are dropped entirely. -/
def flattenParts : List (String × Json) → List String
  | [] => []
  | (k, v) :: rest =>
      let flat := flatten_for_humans v
      if flat ≠ "" then (k ++ ": " ++ flat) :: flattenParts rest
      else flattenParts rest

end

/-- Escape of one character inside a JSON string literal, as produced by
`json.dumps`. -/
def escapeChar (c : Char) : String :=
  if c = '"' then "\\\""
  else if c = '\\' then "\\\\"
  else if c = '\n' then "\\n"
  else if c = '\t' then "\\t"
  else if c = '\r' then "\\r"
  else String.singleton c

/-- Escape of a whole string for a JSON string literal. -/
def escapeString (s : String) : String :=
  s.data.foldl (fun acc c => acc ++ escapeChar c) ""

mutual

/-- Python `json.dumps(value, ensure_ascii=False)` with its default
separators: elements joined by ", " and keys followed by ": ". -/
def dumps : Json → String
  | .null => "null"
  | .bool true => "true"
  | .bool false => "false"
  | .int n => toString n
  | .str s => "\"" ++ escapeString s ++ "\""
  | .arr xs => "[" ++ joinWith ", " (dumpsList xs) ++ "]"
  | .obj kvs => "\x7b" ++ joinWith ", " (dumpsObj kvs) ++ "\x7d"

/-- Serialized elements of a JSON array. -/
def dumpsList : List Json → List String
  | [] => []
  | x :: xs => dumps x :: dumpsList xs

/-- Serialized entries of a JSON object. -/
def dumpsObj : List (String × Json) → List String
  | [] => []
  | (k, v) :: rest => ("\"" ++ escapeString k ++ "\": " ++ dumps v) :: dumpsObj rest

end

/-- Python `type(value).__name__` for the values of our JSON model. -/
def typeName : Json → String
  | .null => "NoneType"
  | .bool _ => "bool"
  | .int _ => "int"
  | .str _ => "str"
  | .arr _ => "list"
  | .obj _ => "dict"

/-- The partition-key field name `COUNTRY_FIELD = "unifiedCountryCode.value"`
(src line 17), used by `normalize_record` as a literal flat key. -/
def COUNTRY_FIELD : String := "unifiedCountryCode.value"

/-- Python dict assignment `d[k] = v` on an association list: replace the
first binding of `k`, or append a new binding when `k` is absent. -/
def setKey (kvs : List (String × Json)) (k : String) (v : Json) : List (String × Json) :=
  match kvs with
  | [] => [(k, v)]
  | (k2, w) :: rest => if k2 = k then (k2, v) :: rest else (k2, w) :: setKey rest k v

/-- The pre-injection row built by `normalize_record` (src lines 617-634):
a dict item is taken as is (a shallow copy), a string item is parsed as
JSON and kept when the parse yields a dict, otherwise wrapped with
`_raw_type = "str"`; a list item is serialized and wrapped with
`_raw_type = "list"`; any other value is wrapped with its type name.
`loads` stands for the external `json.loads`, returning `none` on parse
failure. -/
def normalizeBase (loads : String → Option Json) (item : Json) : List (String × Json) :=
  match item with
  | .obj kvs => kvs
  | .str s =>
      match (if pyStrip s ≠ "" then loads (pyStrip s) else none) with
      | some (.obj kvs) => kvs
      | _ => [("_raw_value", .str s), ("_raw_type", .str "str")]
  | .arr xs => [("_raw_value", .str (dumps (.arr xs))), ("_raw_type", .str "list")]
  | v => [("_raw_value", v), ("_raw_type", .str (typeName v))]

/-- Embedding of `normalize_record` (src lines 616-638): build the row,
then inject the caller's partition value under the literal flat key
`COUNTRY_FIELD` whenever that key is absent or bound to a falsy value. -/
def normalize_record (loads : String → Option Json) (item : Json)
    (country_code : String) : List (String × Json) :=
  let row := normalizeBase loads item
  if truthy (dictGet row COUNTRY_FIELD) then row
  else setKey row COUNTRY_FIELD (.str country_code)

/-- A calendar date (UTC midnight `datetime` in the source). -/
structure Date where
  y : Nat
  m : Nat
  d : Nat
deriving Repr, DecidableEq

/-- Linear encoding of a date. On valid dates (month in 1..12, day in
1..31) it is strictly monotone with respect to chronological order, so
date comparisons of the source's `datetime` values are embedded as `key`
comparisons. -/
def Date.key (a : Date) : Nat := a.y * 372 + a.m * 31 + a.d

/-- Chronological `<=` on dates (via the monotone key encoding). -/
def dateLe (a b : Date) : Bool := a.key ≤ b.key

/-- Chronological `<` on dates (via the monotone key encoding). -/
def dateLt (a b : Date) : Bool := a.key < b.key

/-- Python `max` of two dates (returns the later one). -/
def maxD (a b : Date) : Date := if a.key ≤ b.key then b else a

/-- Python `min` of two dates (returns the earlier one). -/
def minD (a b : Date) : Date := if a.key ≤ b.key then a else b

/-- Gregorian leap year, as implemented by Python's `datetime`. -/
def isLeap (y : Nat) : Bool := (y % 4 == 0 && y % 100 != 0) || y % 400 == 0

/-- Number of days of month `m` of year `y`; the source computes the last
day of a month as `next_month - timedelta(days=1)`, which is this value. -/
def daysInMonth (y m : Nat) : Nat :=
  if m = 2 then (if isLeap y then 29 else 28)
  else if m = 4 ∨ m = 6 ∨ m = 9 ∨ m = 11 then 30
  else 31

/-- A date that `datetime` can represent. -/
def validDate (a : Date) : Prop :=
  1 ≤ a.m ∧ a.m ≤ 12 ∧ 1 ≤ a.d ∧ a.d ≤ daysInMonth a.y a.m

/-- The day after a given date. -/
def nextDay (a : Date) : Date :=
  if a.d < daysInMonth a.y a.m then ⟨a.y, a.m, a.d + 1⟩
  else if a.m < 12 then ⟨a.y, a.m + 1, 1⟩
  else ⟨a.y + 1, 1, 1⟩

/-- Zero-padded two-digit decimal (`%02d`). -/
def pad2 (n : Nat) : String :=
  if n < 10 then "0" ++ toString n else toString n

/-- Zero-padded four-digit decimal (`%04d`). -/
def pad4 (n : Nat) : String :=
  if n < 10 then "000" ++ toString n
  else if n < 100 then "00" ++ toString n
  else if n < 1000 then "0" ++ toString n
  else toString n

/-- `strftime("%Y-%m-%d")`. -/
def fmtDate (a : Date) : String :=
  pad4 a.y ++ "-" ++ pad2 a.m ++ "-" ++ pad2 a.d

/-- The month-mode loop of `iter_time_slices` (src lines 413-443 with
`slice_by = "month"`): cursor at the first day of month `(cy, cm)`; while
the cursor is not past `e`, emit the month clipped to `[s, e]` (buckets
entirely outside the window are skipped) and advance to the next month.
The `fuel` argument only bounds the recursion; the while-loop guard
`cursor <= end_utc` controls the walk, and the fuel supplied by
`iterTimeSlicesD` is provably never exhausted while the guard holds. -/
def monthSlices (s e : Date) : Nat → Nat → Nat → List (String × Date × Date)
  | 0, _, _ => []
  | fuel + 1, cy, cm =>
      if dateLe ⟨cy, cm, 1⟩ e then
        let part_start : Date := ⟨cy, cm, 1⟩
        let part_end : Date := ⟨cy, cm, daysInMonth cy cm⟩
        let label := pad4 cy ++ "-" ++ pad2 cm
        let rest :=
          if cm = 12 then monthSlices s e fuel (cy + 1) 1
          else monthSlices s e fuel cy (cm + 1)
        if dateLt part_end s || dateLt e part_start then rest
        else (label, maxD part_start s, minD part_end e) :: rest
      else []

/-- The year-mode loop of `iter_time_slices` (src lines 413-443 with
`slice_by = "year"`): cursor starts at the first day of the month of `s`
and jumps to January 1 of the following year after each bucket. As for
`monthSlices`, the loop is controlled by the guard, not the fuel. -/
def yearSlices (s e : Date) : Nat → Nat → Nat → List (String × Date × Date)
  | 0, _, _ => []
  | fuel + 1, cy, cm =>
      if dateLe ⟨cy, cm, 1⟩ e then
        let part_start : Date := ⟨cy, 1, 1⟩
        let part_end : Date := ⟨cy, 12, 31⟩
        let label := toString cy
        let rest := yearSlices s e fuel (cy + 1) 1
        if dateLt part_end s || dateLt e part_start then rest
        else (label, maxD part_start s, minD part_end e) :: rest
      else []

/-- Embedding of `iter_time_slices` (src lines 409-443) at the level of
dates: "none" yields the single whole-window slice labelled "all";
"year"/"month" walk calendar buckets from the bucket of `s`, clipped to
`[s, e]`. -/
def iterTimeSlicesD (slice_by : String) (s e : Date) : List (String × Date × Date) :=
  if slice_by = "none" then [("all", s, e)]
  else if slice_by = "year" then yearSlices s e (e.y + 2 - s.y) s.y s.m
  else monthSlices s e (e.key + 1) s.y s.m

/-- `iter_time_slices` proper: the slices with their dates rendered by
`strftime("%Y-%m-%d")` as in the source. -/
def iter_time_slices (slice_by : String) (s e : Date) : List (String × String × String) :=
  (iterTimeSlicesD slice_by s e).map
    (fun t => (t.1, fmtDate t.2.1, fmtDate t.2.2))

/-- The slices `L` tile the window `[a, b]` exactly: `L` is non-empty, its
first slice starts at `a`, its last slice ends at `b`, each slice is a
well-formed range of valid dates, and each slice starts on the day right
after the previous slice ends — no gaps and no overlaps. -/
def slicesCover (L : List (String × Date × Date)) (a b : Date) : Prop :=
  L.head?.map (fun t => t.2.1) = some a ∧
  L.getLast?.map (fun t => t.2.2) = some b ∧
  List.Chain' (fun t u => nextDay t.2.2 = u.2.1) L ∧
  ∀ t ∈ L, dateLe t.2.1 t.2.2 = true ∧ validDate t.2.1 ∧ validDate t.2.2

/-- One line of a CSV part file: the header row written by `writeheader`,
or one data row. -/
inductive CsvLine (α : Type) where
  | header : CsvLine α
  | data : α → CsvLine α
deriving Repr, DecidableEq

/-- Zero-padded three-digit decimal (`%03d`), as in `_part{n:03d}`. -/
def pad3 (n : Nat) : String :=
  if n < 10 then "00" ++ toString n
  else if n < 100 then "0" ++ toString n
  else toString n

/-- Split a character list at its last dot (Python `rsplit(".", 1)`):
`some (base, ext)` when a dot exists, `none` otherwise. -/
def splitExtChars (cs : List Char) : Option (List Char × List Char) :=
  let rev := cs.reverse
  match rev.dropWhile (fun c => c ≠ '.') with
  | [] => none
  | _ :: baseRev => some (baseRev.reverse, (rev.takeWhile (fun c => c ≠ '.')).reverse)

/-- Embedding of `CsvPartWriter._split_name` (src lines 64-73): part 1
keeps the base filename; later parts insert `_part{n:03d}` before the
extension (default extension ".csv" when the filename has no dot). -/
def splitName (filename : String) (part_index : Nat) : String :=
  let be :=
    match splitExtChars filename.data with
    | some (b, x) => (String.mk b, "." ++ String.mk x)
    | none => (filename, ".csv")
  if part_index = 1 then filename
  else be.1 ++ "_part" ++ pad3 part_index ++ be.2

/-- The mutable state of a `CsvPartWriter` (src lines 49-108), with the
written files carried explicitly: `files` lists each created part with its
full content in order, the last element being the currently open part.
`isOpen` models `self._writer is not None`. -/
structure WriterState (α : Type) where
  filename : String
  max_rows_per_file : Nat
  isOpen : Bool
  rows_in_part : Nat
  part_index : Nat
  total_rows : Nat
  files : List (String × List (CsvLine α))
deriving Repr, DecidableEq

/-- A freshly constructed writer (src lines 50-62); the constructor rejects
`max_rows_per_file <= 0`, so theorems assume a positive maximum. -/
def initWriter (α : Type) (filename : String) (max_rows_per_file : Nat) :
    WriterState α :=
  ⟨filename, max_rows_per_file, false, 0, 0, 0, []⟩

/-- Append one line to the currently open (= last created) part. -/
def appendToLast {α : Type} (files : List (String × List (CsvLine α)))
    (l : CsvLine α) : List (String × List (CsvLine α)) :=
  match files with
  | [] => []
  | [f] => [(f.1, f.2 ++ [l])]
  | f :: rest => f :: appendToLast rest l

/-- Embedding of `_open_next_file` (src lines 75-84): bump the part index,
create the next part with its header row, reset the per-part row count. -/
def openNextFile {α : Type} (s : WriterState α) : WriterState α :=
  { s with
    part_index := s.part_index + 1,
    isOpen := true,
    rows_in_part := 0,
    files := s.files ++ [(splitName s.filename (s.part_index + 1),
      [CsvLine.header])] }

/-- Embedding of `write_row` (src lines 92-101): lazily open the first
part, rotate when the current part is full, then append the row. -/
def write_row {α : Type} (s : WriterState α) (row : α) : WriterState α :=
  let s1 := if s.isOpen = false then openNextFile s else s
  let s2 := if s1.max_rows_per_file ≤ s1.rows_in_part then openNextFile s1 else s1
  { s2 with
    files := appendToLast s2.files (CsvLine.data row),
    rows_in_part := s2.rows_in_part + 1,
    total_rows := s2.total_rows + 1 }

/-- Embedding of `write_rows` (src lines 103-105). -/
def write_rows {α : Type} (s : WriterState α) (rows : List α) : WriterState α :=
  rows.foldl write_row s

/-- Result of one `fetch_batch` call as seen by the `stream_country` loop
(src lines 810-891): a page of items, an HTTP error with its status code,
or another network error. -/
inductive FetchResult (Item : Type) where
  | ok : List Item → FetchResult Item
  | httpErr : Nat → FetchResult Item
  | netErr : FetchResult Item
deriving Repr, DecidableEq

/-- The `--date-filter-mode` argument. -/
inductive FilterMode where
  | auto
  | server
  | client
deriving Repr, DecidableEq

/-- The loop state of `stream_country` (src lines 797-802): current
offset, rows written so far, batch counter, consecutive-error counter and
the two filter flags. -/
structure WalkState where
  skip : Nat
  totalWritten : Nat
  batchCount : Nat
  consecutiveErrors : Nat
  useServerFilter : Bool
  useClientFilter : Bool
deriving Repr, DecidableEq

/-- `MAX_CONSECUTIVE_BATCH_ERRORS` (src line 43). -/
def MAX_CONSECUTIVE_BATCH_ERRORS : Nat := 8

/-- The state at the top of `stream_country` (src lines 797-802). -/
def initWalk (limit start_skip : Nat) (updatedFrom : Bool)
    (mode : FilterMode) : WalkState :=
  { skip := start_skip,
    totalWritten := 0,
    batchCount := start_skip / limit + 1,
    consecutiveErrors := 0,
    useServerFilter := updatedFrom && (mode == .server || mode == .auto),
    useClientFilter := updatedFrom && mode == .client }

/-- Outcome of one iteration of the `while True` body of `stream_country`:
continue with a new state (carrying the rows written this iteration),
finish normally, or abort with a `RuntimeError`. -/
inductive StepResult (Item : Type) where
  | next : WalkState → List Item → StepResult Item
  | done : WalkState → StepResult Item
  | fatal : StepResult Item
deriving Repr, DecidableEq

/-- One iteration of the `stream_country` loop (src lines 810-923).
`fetch` abstracts `fetch_batch` as a deterministic function of the offset
and the server-filter flag; `keep` abstracts
`record_matches_updated_from(normalize_record(item), updated_from_dt)`.
A 504 in automatic mode with the server filter active downgrades to
client-side filtering and retries the same offset; other 4xx (except 429)
abort; other errors retry up to `MAX_CONSECUTIVE_BATCH_ERRORS`; an empty
page or a short page ends the walk; otherwise the offset advances by the
number of items received. -/
def walkStep {Item : Type} (fetch : Nat → Bool → FetchResult Item)
    (keep : Item → Bool) (updatedFrom : Bool) (mode : FilterMode)
    (limit : Nat) (s : WalkState) : StepResult Item :=
  match fetch s.skip s.useServerFilter with
  | .httpErr status =>
      if status == 504 && updatedFrom && mode == .auto && s.useServerFilter then
        .next { s with useServerFilter := false, useClientFilter := true } []
      else if 400 ≤ status ∧ status < 500 ∧ status ≠ 429 then
        .fatal
      else if MAX_CONSECUTIVE_BATCH_ERRORS ≤ s.consecutiveErrors + 1 then
        .fatal
      else
        .next { s with consecutiveErrors := s.consecutiveErrors + 1 } []
  | .netErr =>
      if MAX_CONSECUTIVE_BATCH_ERRORS ≤ s.consecutiveErrors + 1 then
        .fatal
      else
        .next { s with consecutiveErrors := s.consecutiveErrors + 1 } []
  | .ok data =>
      let s0 := { s with consecutiveErrors := 0 }
      if data.isEmpty then .done s0
      else
        let rows := data.filter (fun it => !s.useClientFilter || keep it)
        let s1 := { s0 with
          totalWritten := s0.totalWritten + rows.length,
          skip := s.skip + data.length }
        if data.length < limit then .done s1
        else .next { s1 with batchCount := s.batchCount + 1 } rows

/-- States reachable from `a` through zero or more continuing iterations
of the loop. -/
inductive Reach {Item : Type} (fetch : Nat → Bool → FetchResult Item)
    (keep : Item → Bool) (updatedFrom : Bool) (mode : FilterMode)
    (limit : Nat) : WalkState → WalkState → Prop where
  | refl (s : WalkState) : Reach fetch keep updatedFrom mode limit s s
  | step (a b c : WalkState) (rows : List Item) :
      Reach fetch keep updatedFrom mode limit a b →
      walkStep fetch keep updatedFrom mode limit b = .next c rows →
      Reach fetch keep updatedFrom mode limit a c

/-- A stable upstream dataset: fetching at offset `skip` deterministically
returns the next `limit` records of `dataset`, with no errors. -/
def dsFetch {Item : Type} (dataset : List Item) (limit : Nat) :
    Nat → Bool → FetchResult Item :=
  fun skip _ => .ok ((dataset.drop skip).take limit)

/-- The walk of one partition/slice against a stable dataset: iterate
`walkStep` with the `dsFetch` server until the loop finishes. (With this
server no error branch is ever taken, so the `fatal` arm is unreachable;
it returns the current state to make the match total.) -/
def runWalk {Item : Type} (dataset : List Item) (limit : Nat)
    (keep : Item → Bool) (updatedFrom : Bool) (mode : FilterMode)
    (s : WalkState) : WalkState :=
  match h : walkStep (dsFetch dataset limit) keep updatedFrom mode limit s with
  | .next s2 _ => runWalk dataset limit keep updatedFrom mode s2
  | .done s2 => s2
  | .fatal => s
termination_by dataset.length + 1 - s.skip
decreasing_by
  simp only [walkStep, dsFetch] at h
  split_ifs at h with h1 h2
  injection h with h3 h4
  subst h3
  have hL : 0 < (List.take limit (List.drop s.skip dataset)).length := by
    rw [List.length_pos]
    simpa using h1
  rw [List.length_take, List.length_drop] at hL
  dsimp only
  omega

/-- One stored entry of the resume state file, as consulted by `main`
(src lines 1060-1064): the saved `next_skip` (0 when the key is absent)
and whether the pair finished (`done is True`; reading any non-True value,
including an absent key, as false). -/
structure CountryState where
  next_skip : Nat
  done : Bool
deriving Repr, DecidableEq

/-- What `main` decides for one (partition, slice) pair: skip it entirely,
or walk it starting from a given offset. -/
inductive ResumeDecision where
  | skipSlice : ResumeDecision
  | startAt : Nat → ResumeDecision
deriving Repr, DecidableEq

/-- Embedding of the resume decision of `main` (src lines 1060-1064):
`country_state = state.get("countries", \x7b\x7d).get(state_key, \x7b\x7d)`;
if resuming and the entry says done, skip the pair with no fetch;
otherwise start from the saved `next_skip` when resuming (0 by default),
and from 0 on a fresh run. -/
def resume_decision (resume : Bool) (entry : Option CountryState) :
    ResumeDecision :=
  let doneFlag := match entry with | some e => e.done | none => false
  let savedSkip := match entry with | some e => e.next_skip | none => 0
  if resume && doneFlag then .skipSlice
  else .startAt (if resume then savedSkip else 0)

/-- The offset at which the loop state stands after an iteration: the new
offset for a continuing or normally-finished iteration, `none` for a fatal
abort. -/
def StepResult.offset {Item : Type} : StepResult Item → Option Nat
  | .next s _ => some s.skip
  | .done s => some s.skip
  | .fatal => none

theorem extract_arr (xs : List Json) : odata_extract_records (.arr xs) = xs := rfl

theorem extract_obj (kvs : List (String × Json)) :
    odata_extract_records (.obj kvs) = extractSpecObj kvs := by
  simp only [odata_extract_records, extractSpecObj, firstTruthyKey, odataKeys, pyOr]
  split_ifs <;>
    first
      | rfl
      | (cases dictGet kvs "value" <;> rfl)
      | (cases dictGet kvs "Value" <;> rfl)
      | (cases dictGet kvs "result" <;> rfl)
      | (cases dictGet kvs "Result" <;> rfl)
      | (cases dictGet kvs "data" <;> rfl)
      | (cases dictGet kvs "items" <;> rfl)

theorem mem_data_append_left {c : Char} {a : String} (b : String) (h : c ∈ a.data) :
    c ∈ (a ++ b).data := by
  rw [String.data_append]; exact List.mem_append_left _ h

theorem mem_data_append_right {c : Char} (a : String) {b : String} (h : c ∈ b.data) :
    c ∈ (a ++ b).data := by
  rw [String.data_append]; exact List.mem_append_right _ h

theorem joinWith_head_char {sep : String} {c : Char} {x : String} {rest : List String}
    (h : c ∈ x.data) : c ∈ (joinWith sep (x :: rest)).data := by
  cases rest with
  | nil => simpa [joinWith] using h
  | cons y t =>
      simp only [joinWith]
      exact mem_data_append_left _ (mem_data_append_left _ h)

theorem joinWith_sep_char {sep : String} {c : Char} (hc : c ∈ sep.data)
    {x y : String} {rest : List String} : c ∈ (joinWith sep (x :: y :: rest)).data := by
  simp only [joinWith]
  exact mem_data_append_left _ (mem_data_append_right _ hc)

theorem flattenList_mem : ∀ {xs : List Json} {s : String},
    s ∈ flattenList xs → ∃ j ∈ xs, s = flatten_for_humans j := by
  intro xs
  induction xs with
  | nil => intro s h; simp [flattenList] at h
  | cons x t ih =>
      intro s h
      simp only [flattenList, List.mem_cons] at h
      rcases h with h | h
      · exact ⟨x, List.mem_cons_self x t, h⟩
      · obtain ⟨j, hj, hs⟩ := ih h
        exact ⟨j, List.mem_cons_of_mem x hj, hs⟩

theorem flattenParts_colon : ∀ {kvs : List (String × Json)} {p : String},
    p ∈ flattenParts kvs → ':' ∈ p.data := by
  intro kvs
  induction kvs with
  | nil => intro p h; simp [flattenParts] at h
  | cons kv t ih =>
      intro p h
      obtain ⟨k, v⟩ := kv
      simp only [flattenParts] at h
      split at h
      · rcases List.mem_cons.mp h with h | h
        · subst h
          exact mem_data_append_left _
            (mem_data_append_right _ (show ':' ∈ (": ").data by decide))
        · exact ih h
      · exact ih h

theorem colon_not_token {t : String} (ht : t ∈ emptyTokens) : ':' ∉ t.data := by
  fin_cases ht <;> decide

theorem bar_not_token {t : String} (ht : t ∈ emptyTokens) : '|' ∉ t.data := by
  fin_cases ht <;> decide

theorem empty_not_token : "" ∉ emptyTokens := by decide

theorem flatten_no_token : ∀ (n : Nat) (v : Json), sizeOf v ≤ n →
    flatten_for_humans v ∉ emptyTokens := by
  intro n
  induction n with
  | zero =>
      intro v hv
      exfalso
      cases v <;> simp at hv
  | succ n ih =>
      intro v hv
      cases v with
      | arr xs =>
          simp only [flatten_for_humans]
          split
          · exact empty_not_token
          · cases hfs : (flattenList xs).filter (fun s => s ≠ "") with
            | nil => simpa [joinWith] using empty_not_token
            | cons x rest =>
                cases rest with
                | nil =>
                    have hxf : x ∈ (flattenList xs).filter (fun s => s ≠ "") := by
                      rw [hfs]; exact List.mem_cons_self _ _
                    have hx : x ∈ flattenList xs := List.mem_of_mem_filter hxf
                    obtain ⟨j, hj, hs⟩ := flattenList_mem hx
                    have hsz : sizeOf j ≤ n := by
                      have h1 := List.sizeOf_lt_of_mem hj
                      have h2 : sizeOf (Json.arr xs) = 1 + sizeOf xs := by simp
                      omega
                    subst hs
                    simpa [joinWith] using ih j hsz
                | cons y t =>
                    intro hmem
                    exact bar_not_token hmem (joinWith_sep_char (by decide))
      | obj kvs =>
          simp only [flatten_for_humans]
          cases hps : flattenParts kvs with
          | nil => simpa [joinWith] using empty_not_token
          | cons p rest =>
              intro hmem
              have hp : p ∈ flattenParts kvs := by
                rw [hps]; exact List.mem_cons_self _ _
              have hcolon := flattenParts_colon hp
              exact colon_not_token hmem (joinWith_head_char hcolon)
      | null =>
          simp only [flatten_for_humans, sentinelToEmpty]
          split
          · exact empty_not_token
          · assumption
      | bool b =>
          simp only [flatten_for_humans, sentinelToEmpty]
          split
          · exact empty_not_token
          · assumption
      | int m =>
          simp only [flatten_for_humans, sentinelToEmpty]
          split
          · exact empty_not_token
          · assumption
      | str s =>
          simp only [flatten_for_humans, sentinelToEmpty]
          split
          · exact empty_not_token
          · assumption

/-- C9: for every JSON-like input value (arbitrarily nested objects,
sequences, scalars, null), `flatten_for_humans` is total (it is defined as
a total Lean function over all of `Json`) and its result is never one of
the designated empty-sentinel tokens "None", "nan", "NaN", "null", "[]",
"{}"; moreover every scalar whose stringified, trimmed text is such a
token is mapped to the empty string. -/
theorem c9_flatten_total_no_sentinels :
    (∀ v : Json, flatten_for_humans v ∉ emptyTokens) ∧
    (∀ v : Json, Json.isScalar v = true → scalarText v ∈ emptyTokens →
      flatten_for_humans v = "") := by
  constructor
  · exact fun v => flatten_no_token (sizeOf v) v le_rfl
  · intro v hv ht
    cases v <;>
      simp_all [flatten_for_humans, sentinelToEmpty, Json.isScalar]

theorem c9_flatten_witness :
    flatten_for_humans (.str "NaN") = "" ∧
    flatten_for_humans (.arr [.str "None", .int 3]) ∉ emptyTokens :=
  ⟨c9_flatten_total_no_sentinels.2 (.str "NaN") rfl (by decide),
   c9_flatten_total_no_sentinels.1 (.arr [.str "None", .int 3])⟩

/-- C10: `odata_extract_records` always returns a list: a list payload is
returned unchanged; for a dict payload the first truthy value among the
keys "value", "Value", "result", "Result", "data", "items" is taken (a
falsy value such as an empty list under an earlier key falls through to
the next key, and a non-list value is wrapped as a one-element list),
defaulting to the empty list when no key holds a truthy value; any other
payload (string, number, boolean, null) is wrapped as a one-element
list. -/
theorem c10_extract_records_cases :
    (∀ xs : List Json, odata_extract_records (.arr xs) = xs) ∧
    (∀ kvs : List (String × Json),
        odata_extract_records (.obj kvs) =
          match firstTruthyKey kvs odataKeys with
          | some (.arr xs) => xs
          | some v => [v]
          | none => []) ∧
    (∀ v : Json, Json.isScalar v = true → odata_extract_records v = [v]) := by
  refine ⟨extract_arr, fun kvs => extract_obj kvs, ?_⟩
  intro v hv
  cases v <;> first | rfl | simp [Json.isScalar] at hv

theorem c10_extract_records_witness :
    odata_extract_records (.obj [("value", .arr []), ("result", .int 7)]) = [.int 7] ∧
    odata_extract_records (.str "x") = [.str "x"] :=
  ⟨(c10_extract_records_cases.2.1 [("value", .arr []), ("result", .int 7)]).trans (by rfl),
   c10_extract_records_cases.2.2 (.str "x") rfl⟩

theorem lookupKey_setKey (kvs : List (String × Json)) (k : String) (v : Json) :
    lookupKey (setKey kvs k v) k = some v := by
  induction kvs with
  | nil => simp [setKey, lookupKey]
  | cons kv rest ih =>
      obtain ⟨k2, w⟩ := kv
      by_cases h : k2 = k
      · subst h; simp [setKey, lookupKey]
      · simp [setKey, lookupKey, h, ih]

/-- C1 (corrected): for every item and non-empty partition value,
`normalize_record` returns a row in which the partition-key field — the
literal flat key "unifiedCountryCode.value" — is present and truthy; a
dict item that already binds that flat key to a truthy value is returned
unchanged; but the example record stores its country nested under
"unifiedCountryCode" rather than under the flat key, so the flat key
"unifiedCountryCode.value": "KG" is appended to it instead of the record
being returned unchanged. -/
theorem c1_partition_key_amended :
    (∀ (loads : String → Option Json) (item : Json) (cc : String), cc ≠ "" →
        truthy (dictGet (normalize_record loads item cc) COUNTRY_FIELD) = true) ∧
    (∀ (loads : String → Option Json) (kvs : List (String × Json)) (cc : String),
        truthy (dictGet kvs COUNTRY_FIELD) = true →
        normalize_record loads (.obj kvs) cc = kvs) ∧
    (∀ loads : String → Option Json,
        normalize_record loads
            (.obj [("docId", .str "123"),
              ("unifiedCountryCode", .obj [("value", .str "KG")])]) "KG" =
          [("docId", .str "123"), ("unifiedCountryCode", .obj [("value", .str "KG")]),
            (COUNTRY_FIELD, .str "KG")]) := by
  refine ⟨?_, ?_, ?_⟩
  · intro loads item cc hcc
    simp only [normalize_record]
    split
    · assumption
    · simp [dictGet, lookupKey_setKey, truthy, hcc]
  · intro loads kvs cc h
    simp [normalize_record, normalizeBase, h]
  · intro loads
    rfl

theorem c1_partition_key_witness :
    truthy (dictGet (normalize_record (fun _ => none) (.int 5) "KG") COUNTRY_FIELD)
        = true ∧
    normalize_record (fun _ => none) (.obj [(COUNTRY_FIELD, .str "RU")]) "KG" =
      [(COUNTRY_FIELD, .str "RU")] :=
  ⟨c1_partition_key_amended.1 (fun _ => none) (.int 5) "KG" (by decide),
   c1_partition_key_amended.2.1 (fun _ => none) [(COUNTRY_FIELD, .str "RU")] "KG"
     (by decide)⟩

/-- C1 counterexample: the claim promises that the example record
normalized for partition "KG" is returned unchanged, but `normalize_record`
checks the literal flat key and therefore appends
"unifiedCountryCode.value": "KG" to it. -/
theorem c1_partition_key_counterexample :
    normalize_record (fun _ => none)
        (.obj [("docId", .str "123"),
          ("unifiedCountryCode", .obj [("value", .str "KG")])]) "KG" ≠
      [("docId", .str "123"), ("unifiedCountryCode", .obj [("value", .str "KG")])] := by
  intro h
  have hl : (normalize_record (fun _ => none)
      (.obj [("docId", .str "123"),
        ("unifiedCountryCode", .obj [("value", .str "KG")])]) "KG").length = 3 := rfl
  rw [h] at hl
  simp at hl

/-- C2 (corrected): for every non-object item, `normalize_record` wraps it
with the sentinel tags actually emitted by the code: a string that fails
JSON-object parsing becomes a row with `_raw_value` the string and
`_raw_type = "str"`; an array becomes `_raw_value = dumps(item)` with
`_raw_type = "list"`; any other scalar keeps the item under `_raw_value`
with `_raw_type` its Python type name; and the bare array [1,2,3]
normalizes to `_raw_value = "[1, 2, 3]"`, `_raw_type = "list"`, plus the
injected partition key. -/
theorem c2_raw_wrapping_amended :
    (∀ (loads : String → Option Json) (s : String) (cc : String),
        (∀ kvs : List (String × Json),
          (if pyStrip s ≠ "" then loads (pyStrip s) else none) ≠ some (.obj kvs)) →
        normalize_record loads (.str s) cc =
          [("_raw_value", .str s), ("_raw_type", .str "str"),
            (COUNTRY_FIELD, .str cc)]) ∧
    (∀ (loads : String → Option Json) (xs : List Json) (cc : String),
        normalize_record loads (.arr xs) cc =
          [("_raw_value", .str (dumps (.arr xs))), ("_raw_type", .str "list"),
            (COUNTRY_FIELD, .str cc)]) ∧
    (∀ (loads : String → Option Json) (v : Json) (cc : String),
        Json.isScalar v = true → (∀ s, v ≠ .str s) →
        normalize_record loads v cc =
          [("_raw_value", v), ("_raw_type", .str (typeName v)),
            (COUNTRY_FIELD, .str cc)]) ∧
    (∀ (loads : String → Option Json) (cc : String),
        normalize_record loads (.arr [.int 1, .int 2, .int 3]) cc =
          [("_raw_value", .str "[1, 2, 3]"), ("_raw_type", .str "list"),
            (COUNTRY_FIELD, .str cc)]) := by
  refine ⟨?_, ?_, ?_, ?_⟩
  · intro loads s cc h
    have hstep : normalizeBase loads (.str s) =
        (match (if pyStrip s ≠ "" then loads (pyStrip s) else none) with
          | some (.obj kvs) => kvs
          | _ => [("_raw_value", Json.str s), ("_raw_type", Json.str "str")]) := rfl
    have hb : normalizeBase loads (.str s) =
        [("_raw_value", .str s), ("_raw_type", .str "str")] := by
      rw [hstep]
      cases hp : (if pyStrip s ≠ "" then loads (pyStrip s) else none) with
      | none => rfl
      | some v =>
          cases v with
          | obj kvs => exact absurd hp (h kvs)
          | null => rfl
          | bool b => rfl
          | int n => rfl
          | str t => rfl
          | arr xs => rfl
    simp only [normalize_record, hb]
    rfl
  · intro loads xs cc
    rfl
  · intro loads v cc hv hs
    cases v with
    | null => rfl
    | bool b => rfl
    | int n => rfl
    | str s => exact absurd rfl (hs s)
    | arr xs => simp [Json.isScalar] at hv
    | obj kvs => simp [Json.isScalar] at hv
  · intro loads cc
    rfl

theorem c2_raw_wrapping_witness :
    normalize_record (fun _ => none) (.str "oops") "KG" =
      [("_raw_value", .str "oops"), ("_raw_type", .str "str"),
        (COUNTRY_FIELD, .str "KG")] ∧
    normalize_record (fun _ => none) (.bool true) "BY" =
      [("_raw_value", .bool true), ("_raw_type", .str "bool"),
        (COUNTRY_FIELD, .str "BY")] :=
  ⟨c2_raw_wrapping_amended.1 (fun _ => none) "oops" "KG"
      (fun kvs => by split <;> exact fun h => Option.noConfusion h),
   c2_raw_wrapping_amended.2.2.1 (fun _ => none) (.bool true) "BY" rfl
      (fun s h => Json.noConfusion h)⟩

/-- C2 counterexample: the claim expects the bare array [1,2,3] to carry
the tag `_raw_type = "array"`, but the code emits the Python type name
"list". -/
theorem c2_raw_wrapping_counterexample :
    dictGet (normalize_record (fun _ => none) (.arr [.int 1, .int 2, .int 3]) "KG")
        "_raw_type" ≠ .str "array" := by
  intro h
  have hl : dictGet (normalize_record (fun _ => none)
      (.arr [.int 1, .int 2, .int 3]) "KG") "_raw_type" = .str "list" := rfl
  rw [hl] at h
  exact absurd (Json.str.inj h) (by decide)

theorem daysInMonth_bounds (y m : Nat) : 28 ≤ daysInMonth y m ∧ daysInMonth y m ≤ 31 := by
  unfold daysInMonth
  split_ifs <;> omega

theorem date_key_inj {a b : Date} (ha : validDate a) (hb : validDate b)
    (h : a.key = b.key) : a = b := by
  obtain ⟨ay, am, ad⟩ := a
  obtain ⟨by2, bm, bd⟩ := b
  obtain ⟨ha1, ha2, ha3, ha4⟩ := ha
  obtain ⟨hb1, hb2, hb3, hb4⟩ := hb
  simp only [Date.key] at h
  simp only at ha1 ha2 ha3 ha4 hb1 hb2 hb3 hb4
  have hda := (daysInMonth_bounds ay am).2
  have hdb := (daysInMonth_bounds by2 bm).2
  have h1 : ay = by2 := by omega
  have h2 : am = bm := by omega
  have h3 : ad = bd := by omega
  simp [h1, h2, h3]

theorem key_lt_nextDay {a : Date} (ha : validDate a) : a.key < (nextDay a).key := by
  obtain ⟨ay, am, ad⟩ := a
  obtain ⟨h1, h2, h3, h4⟩ := ha
  have hd := (daysInMonth_bounds ay am).2
  simp only at h1 h2 h3 h4
  unfold nextDay
  split_ifs <;> simp_all [Date.key] <;> omega

theorem maxD_eq_right {a b : Date} (h : a.key ≤ b.key) : maxD a b = b := by
  simp [maxD, h]

theorem maxD_eq_left {a b : Date} (ha : validDate a) (hb : validDate b)
    (h : b.key ≤ a.key) : maxD a b = a := by
  rcases Nat.lt_or_ge b.key a.key with hlt | hge
  · simp [maxD, Nat.not_le.mpr hlt]
  · have hk : a.key = b.key := le_antisymm (le_trans hge (le_refl _)) h
    rw [maxD, if_pos (le_of_eq hk), date_key_inj hb ha hk.symm]

theorem minD_eq_left {a b : Date} (h : a.key ≤ b.key) : minD a b = a := by
  simp [minD, h]

theorem minD_eq_right {a b : Date} (ha : validDate a) (hb : validDate b)
    (h : b.key ≤ a.key) : minD a b = b := by
  rcases Nat.lt_or_ge b.key a.key with hlt | hge
  · simp [minD, Nat.not_le.mpr hlt]
  · have hk : a.key = b.key := le_antisymm (le_trans hge (le_refl _)) h
    rw [minD, if_pos (le_of_eq hk), date_key_inj ha hb hk]

theorem monthSlices_stop {s e : Date} {fuel cy cm : Nat}
    (h : dateLe ⟨cy, cm, 1⟩ e = false) : monthSlices s e fuel cy cm = [] := by
  cases fuel with
  | zero => rfl
  | succ n => simp [monthSlices, h]

theorem yearSlices_stop {s e : Date} {fuel cy cm : Nat}
    (h : dateLe ⟨cy, cm, 1⟩ e = false) : yearSlices s e fuel cy cm = [] := by
  cases fuel with
  | zero => rfl
  | succ n => simp [yearSlices, h]

theorem dateLe_true {a b : Date} : dateLe a b = true ↔ a.key ≤ b.key := by
  simp [dateLe]

theorem dateLt_true {a b : Date} : dateLt a b = true ↔ a.key < b.key := by
  simp [dateLt]

theorem maxD_cases (a b : Date) : maxD a b = a ∨ maxD a b = b := by
  unfold maxD; split_ifs <;> simp

theorem minD_cases (a b : Date) : minD a b = a ∨ minD a b = b := by
  unfold minD; split_ifs <;> simp

theorem maxD_valid {a b : Date} (ha : validDate a) (hb : validDate b) :
    validDate (maxD a b) := by
  rcases maxD_cases a b with h | h <;> rw [h] <;> assumption

theorem minD_valid {a b : Date} (ha : validDate a) (hb : validDate b) :
    validDate (minD a b) := by
  rcases minD_cases a b with h | h <;> rw [h] <;> assumption



theorem key_eq (a : Date) : a.key = a.y * 372 + a.m * 31 + a.d := rfl

theorem validDate_mk {y m d : Nat} :
    validDate ⟨y, m, d⟩ ↔ 1 ≤ m ∧ m ≤ 12 ∧ 1 ≤ d ∧ d ≤ daysInMonth y m := Iff.rfl

theorem nextDay_month_end (cy cm : Nat) (h2 : cm ≤ 12) :
    nextDay ⟨cy, cm, daysInMonth cy cm⟩ =
      if cm = 12 then (⟨cy + 1, 1, 1⟩ : Date) else ⟨cy, cm + 1, 1⟩ := by
  unfold nextDay
  dsimp only
  rw [if_neg (by omega : ¬ daysInMonth cy cm < daysInMonth cy cm)]
  by_cases h12 : cm = 12
  · rw [if_neg (by omega : ¬ cm < 12), if_pos h12]
  · rw [if_pos (by omega : cm < 12), if_neg h12]

theorem monthSlices_covers :
    ∀ (fuel : Nat) (s e : Date) (cy cm : Nat),
      validDate s → validDate e →
      1 ≤ cm → cm ≤ 12 →
      s.y * 12 + s.m ≤ cy * 12 + cm →
      s.key ≤ e.key →
      Date.key ⟨cy, cm, 1⟩ ≤ e.key →
      e.key + 1 - Date.key ⟨cy, cm, 1⟩ ≤ 31 * fuel →
      slicesCover (monthSlices s e fuel cy cm) (maxD ⟨cy, cm, 1⟩ s) e := by
  intro fuel
  induction fuel with
  | zero =>
      intro s e cy cm hs he h1 h2 hm hse hg hf
      simp only [key_eq] at hg hf
      exfalso
      omega
  | succ n ih =>
      intro s e cy cm hs he h1 h2 hm hse hg hf
      simp only [key_eq] at hg hf
      have hs1 : 1 ≤ s.m := hs.1
      have hs2 : s.m ≤ 12 := hs.2.1
      have hsd1 : 1 ≤ s.d := hs.2.2.1
      have hsd : s.d ≤ 31 := le_trans hs.2.2.2 (daysInMonth_bounds s.y s.m).2
      have he1 : 1 ≤ e.m := he.1
      have he2 : e.m ≤ 12 := he.2.1
      have hed1 : 1 ≤ e.d := he.2.2.1
      have hed : e.d ≤ 31 := le_trans he.2.2.2 (daysInMonth_bounds e.y e.m).2
      have hdim28 : 28 ≤ daysInMonth cy cm := (daysInMonth_bounds cy cm).1
      have hdim31 : daysInMonth cy cm ≤ 31 := (daysInMonth_bounds cy cm).2
      have hsk : s.key = s.y * 372 + s.m * 31 + s.d := key_eq s
      have hek : e.key = e.y * 372 + e.m * 31 + e.d := key_eq e
      have hgb : dateLe ⟨cy, cm, 1⟩ e = true := by
        rw [dateLe_true]; simp only [key_eq]; omega
      -- the start date never lies after this month's last day
      have hA : s.key ≤ cy * 372 + cm * 31 + daysInMonth cy cm := by
        by_cases hsame : s.y = cy ∧ s.m = cm
        · obtain ⟨hy, hmm⟩ := hsame
          have hds : s.d ≤ daysInMonth cy cm := by
            have := hs.2.2.2; rw [hy, hmm] at this; exact this
          omega
        · have hneq : s.y * 12 + s.m ≠ cy * 12 + cm := by
            intro hEq
            exact hsame ⟨by omega, by omega⟩
          omega
      -- the skip branch never fires
      have hskip : (dateLt ⟨cy, cm, daysInMonth cy cm⟩ s || dateLt e ⟨cy, cm, 1⟩)
          = false := by
        have hx1 : dateLt ⟨cy, cm, daysInMonth cy cm⟩ s = false := by
          simp only [dateLt, decide_eq_false_iff_not, Nat.not_lt, key_eq]
          omega
        have hx2 : dateLt e ⟨cy, cm, 1⟩ = false := by
          simp only [dateLt, decide_eq_false_iff_not, Nat.not_lt, key_eq]
          omega
        rw [hx1, hx2]; rfl
      have hcv : validDate (⟨cy, cm, 1⟩ : Date) :=
        validDate_mk.mpr ⟨h1, h2, le_refl 1, by omega⟩
      have hpev : validDate (⟨cy, cm, daysInMonth cy cm⟩ : Date) :=
        validDate_mk.mpr ⟨h1, h2, by omega, le_refl _⟩
      simp only [monthSlices, hgb, if_true, hskip, Bool.false_eq_true, if_false]
      by_cases hnext : cy * 372 + cm * 31 + 32 ≤ e.key
      · -- the walk continues into the next month: this slice covers its
        -- whole month and the recursion covers the rest
        have hmin : minD ⟨cy, cm, daysInMonth cy cm⟩ e =
            ⟨cy, cm, daysInMonth cy cm⟩ := by
          apply minD_eq_left
          simp only [key_eq]; omega
        by_cases h12 : cm = 12
        · rw [if_pos h12]
          have hncv : validDate (⟨cy + 1, 1, 1⟩ : Date) :=
            validDate_mk.mpr ⟨le_refl 1, by omega, le_refl 1,
              by have := (daysInMonth_bounds (cy + 1) 1).1; omega⟩
          have ihres := ih s e (cy + 1) 1 hs he (le_refl 1) (by omega)
            (by omega) hse (by simp only [key_eq]; omega) (by simp only [key_eq]; omega)
          have hmaxnc : maxD ⟨cy + 1, 1, 1⟩ s = ⟨cy + 1, 1, 1⟩ := by
            apply maxD_eq_left hncv hs
            simp only [key_eq]; omega
          rw [hmaxnc] at ihres
          obtain ⟨ihhead, ihlast, ihchain, ihbounds⟩ := ihres
          cases hrest : monthSlices s e n (cy + 1) 1 with
          | nil => rw [hrest] at ihhead; simp at ihhead
          | cons r rs =>
              rw [hrest] at ihhead ihlast ihchain ihbounds
              have hr1 : r.2.1 = ⟨cy + 1, 1, 1⟩ := by simpa using ihhead
              refine ⟨rfl, ?_, ?_, ?_⟩
              · rw [List.getLast?_cons_cons]; exact ihlast
              · rw [List.chain'_cons]
                refine ⟨?_, ihchain⟩
                dsimp only
                rw [hmin, hr1, nextDay_month_end cy cm h2, if_pos h12]
              · intro t ht
                rcases List.mem_cons.mp ht with h | h
                · subst h
                  refine ⟨?_, maxD_valid hcv hs, minD_valid hpev he⟩
                  dsimp only
                  rw [hmin, dateLe_true]
                  rcases maxD_cases ⟨cy, cm, 1⟩ s with hx | hx <;> rw [hx]
                  · simp only [key_eq]; omega
                  · simp only [key_eq]; omega
                · exact ihbounds t h
        · rw [if_neg h12]
          have hncv : validDate (⟨cy, cm + 1, 1⟩ : Date) :=
            validDate_mk.mpr ⟨by omega, by omega, le_refl 1,
              by have := (daysInMonth_bounds cy (cm + 1)).1; omega⟩
          have ihres := ih s e cy (cm + 1) hs he (by omega) (by omega)
            (by omega) hse (by simp only [key_eq]; omega) (by simp only [key_eq]; omega)
          have hmaxnc : maxD ⟨cy, cm + 1, 1⟩ s = ⟨cy, cm + 1, 1⟩ := by
            apply maxD_eq_left hncv hs
            simp only [key_eq]; omega
          rw [hmaxnc] at ihres
          obtain ⟨ihhead, ihlast, ihchain, ihbounds⟩ := ihres
          cases hrest : monthSlices s e n cy (cm + 1) with
          | nil => rw [hrest] at ihhead; simp at ihhead
          | cons r rs =>
              rw [hrest] at ihhead ihlast ihchain ihbounds
              have hr1 : r.2.1 = ⟨cy, cm + 1, 1⟩ := by simpa using ihhead
              refine ⟨rfl, ?_, ?_, ?_⟩
              · rw [List.getLast?_cons_cons]; exact ihlast
              · rw [List.chain'_cons]
                refine ⟨?_, ihchain⟩
                dsimp only
                rw [hmin, hr1, nextDay_month_end cy cm h2, if_neg h12]
              · intro t ht
                rcases List.mem_cons.mp ht with h | h
                · subst h
                  refine ⟨?_, maxD_valid hcv hs, minD_valid hpev he⟩
                  dsimp only
                  rw [hmin, dateLe_true]
                  rcases maxD_cases ⟨cy, cm, 1⟩ s with hx | hx <;> rw [hx]
                  · simp only [key_eq]; omega
                  · simp only [key_eq]; omega
                · exact ihbounds t h
      · -- the next cursor is past e: this is the last slice and it is
        -- clipped to end exactly at e
        have heA : e.key ≤ cy * 372 + cm * 31 + daysInMonth cy cm := by
          by_cases hsame : e.y = cy ∧ e.m = cm
          · obtain ⟨hy, hmm⟩ := hsame
            have hde : e.d ≤ daysInMonth cy cm := by
              have := he.2.2.2; rw [hy, hmm] at this; exact this
            omega
          · exfalso
            have hneq : e.y * 12 + e.m ≠ cy * 12 + cm := by
              intro hEq
              exact hsame ⟨by omega, by omega⟩
            omega
        have hmin : minD ⟨cy, cm, daysInMonth cy cm⟩ e = e := by
          apply minD_eq_right hpev he
          simp only [key_eq]; omega
        have hstop12 : monthSlices s e n (cy + 1) 1 = [] := by
          apply monthSlices_stop
          simp only [dateLe, decide_eq_false_iff_not, Nat.not_le, key_eq]
          omega
        have hstopm : monthSlices s e n cy (cm + 1) = [] := by
          apply monthSlices_stop
          simp only [dateLe, decide_eq_false_iff_not, Nat.not_le, key_eq]
          omega
        have hone : (if cm = 12 then monthSlices s e n (cy + 1) 1
            else monthSlices s e n cy (cm + 1)) = ([] : List (String × Date × Date)) := by
          by_cases h12 : cm = 12
          · rw [if_pos h12]; exact hstop12
          · rw [if_neg h12]; exact hstopm
        rw [hone]
        refine ⟨rfl, ?_, ?_, ?_⟩
        · rw [List.getLast?_singleton]
          dsimp only [Option.map]
          rw [hmin]
        · simp
        · intro t ht
          rcases List.mem_cons.mp ht with h | h
          · subst h
            refine ⟨?_, maxD_valid hcv hs, minD_valid hpev he⟩
            dsimp only
            rw [hmin, dateLe_true]
            rcases maxD_cases ⟨cy, cm, 1⟩ s with hx | hx <;> rw [hx]
            · simp only [key_eq]; omega
            · exact hse
          · simp at h

theorem daysInMonth_december (cy : Nat) : daysInMonth cy 12 = 31 := rfl

theorem daysInMonth_january (cy : Nat) : daysInMonth cy 1 = 31 := rfl

theorem nextDay_year_end (cy : Nat) : nextDay ⟨cy, 12, 31⟩ = ⟨cy + 1, 1, 1⟩ := rfl

theorem yearSlices_covers :
    ∀ (fuel : Nat) (s e : Date) (cy cm : Nat),
      validDate s → validDate e →
      1 ≤ cm → cm ≤ 12 →
      s.y ≤ cy →
      s.key ≤ e.key →
      Date.key ⟨cy, cm, 1⟩ ≤ e.key →
      e.y + 1 - cy ≤ fuel →
      slicesCover (yearSlices s e fuel cy cm) (maxD ⟨cy, 1, 1⟩ s) e := by
  intro fuel
  induction fuel with
  | zero =>
      intro s e cy cm hs he h1 h2 hm hse hg hf
      have he2 : e.m ≤ 12 := he.2.1
      have hed : e.d ≤ 31 := le_trans he.2.2.2 (daysInMonth_bounds e.y e.m).2
      simp only [key_eq] at hg
      exfalso
      omega
  | succ n ih =>
      intro s e cy cm hs he h1 h2 hm hse hg hf
      simp only [key_eq] at hg
      have hs1 : 1 ≤ s.m := hs.1
      have hs2 : s.m ≤ 12 := hs.2.1
      have hsd1 : 1 ≤ s.d := hs.2.2.1
      have hsd : s.d ≤ 31 := le_trans hs.2.2.2 (daysInMonth_bounds s.y s.m).2
      have he1 : 1 ≤ e.m := he.1
      have he2 : e.m ≤ 12 := he.2.1
      have hed1 : 1 ≤ e.d := he.2.2.1
      have hed : e.d ≤ 31 := le_trans he.2.2.2 (daysInMonth_bounds e.y e.m).2
      have hsk : s.key = s.y * 372 + s.m * 31 + s.d := key_eq s
      have hek : e.key = e.y * 372 + e.m * 31 + e.d := key_eq e
      have hgb : dateLe ⟨cy, cm, 1⟩ e = true := by
        rw [dateLe_true]; simp only [key_eq]; omega
      have hskip : (dateLt ⟨cy, 12, 31⟩ s || dateLt e ⟨cy, 1, 1⟩) = false := by
        have hx1 : dateLt ⟨cy, 12, 31⟩ s = false := by
          simp only [dateLt, decide_eq_false_iff_not, Nat.not_lt, key_eq]
          omega
        have hx2 : dateLt e ⟨cy, 1, 1⟩ = false := by
          simp only [dateLt, decide_eq_false_iff_not, Nat.not_lt, key_eq]
          omega
        rw [hx1, hx2]; rfl
      have hpsv : validDate (⟨cy, 1, 1⟩ : Date) :=
        validDate_mk.mpr ⟨le_refl 1, by omega, le_refl 1,
          by rw [daysInMonth_january]; omega⟩
      have hpev : validDate (⟨cy, 12, 31⟩ : Date) :=
        validDate_mk.mpr ⟨by omega, le_refl 12, by omega,
          by rw [daysInMonth_december]⟩
      simp only [yearSlices, hgb, if_true, hskip, Bool.false_eq_true, if_false]
      by_cases hnext : Date.key ⟨cy + 1, 1, 1⟩ ≤ e.key
      · have hmin : minD ⟨cy, 12, 31⟩ e = ⟨cy, 12, 31⟩ := by
          apply minD_eq_left
          simp only [key_eq] at hnext ⊢
          omega
        have hncv : validDate (⟨cy + 1, 1, 1⟩ : Date) :=
          validDate_mk.mpr ⟨le_refl 1, by omega, le_refl 1,
            by rw [daysInMonth_january]; omega⟩
        have ihres := ih s e (cy + 1) 1 hs he (le_refl 1) (by omega)
          (by omega) hse hnext (by omega)
        have hmaxnc : maxD ⟨cy + 1, 1, 1⟩ s = ⟨cy + 1, 1, 1⟩ := by
          apply maxD_eq_left hncv hs
          simp only [key_eq]; omega
        rw [hmaxnc] at ihres
        obtain ⟨ihhead, ihlast, ihchain, ihbounds⟩ := ihres
        cases hrest : yearSlices s e n (cy + 1) 1 with
        | nil => rw [hrest] at ihhead; simp at ihhead
        | cons r rs =>
            rw [hrest] at ihhead ihlast ihchain ihbounds
            have hr1 : r.2.1 = ⟨cy + 1, 1, 1⟩ := by simpa using ihhead
            refine ⟨rfl, ?_, ?_, ?_⟩
            · rw [List.getLast?_cons_cons]; exact ihlast
            · rw [List.chain'_cons]
              refine ⟨?_, ihchain⟩
              dsimp only
              rw [hmin, hr1, nextDay_year_end]
            · intro t ht
              rcases List.mem_cons.mp ht with h | h
              · subst h
                refine ⟨?_, maxD_valid hpsv hs, minD_valid hpev he⟩
                dsimp only
                rw [hmin, dateLe_true]
                rcases maxD_cases ⟨cy, 1, 1⟩ s with hx | hx <;> rw [hx] <;>
                  simp only [key_eq] <;> omega
              · exact ihbounds t h
      · simp only [key_eq] at hnext
        have hstop : yearSlices s e n (cy + 1) 1 = [] := by
          apply yearSlices_stop
          simp only [dateLe, decide_eq_false_iff_not, Nat.not_le, key_eq]
          omega
        rw [hstop]
        have hmin : minD ⟨cy, 12, 31⟩ e = e := by
          apply minD_eq_right hpev he
          simp only [key_eq]; omega
        refine ⟨rfl, ?_, ?_, ?_⟩
        · rw [List.getLast?_singleton]
          dsimp only [Option.map]
          rw [hmin]
        · simp
        · intro t ht
          rcases List.mem_cons.mp ht with h | h
          · subst h
            refine ⟨?_, maxD_valid hpsv hs, minD_valid hpev he⟩
            dsimp only
            rw [hmin, dateLe_true]
            rcases maxD_cases ⟨cy, 1, 1⟩ s with hx | hx <;> rw [hx] <;>
              simp only [key_eq] <;> omega
          · simp at h

theorem cover_pairwise :
    ∀ (L : List (String × Date × Date)),
      List.Chain' (fun t u => nextDay t.2.2 = u.2.1) L →
      (∀ t ∈ L, dateLe t.2.1 t.2.2 = true ∧ validDate t.2.1 ∧ validDate t.2.2) →
      List.Pairwise (fun t u => dateLt t.2.2 u.2.1 = true) L := by
  intro L
  induction L with
  | nil => intro _ _; exact List.Pairwise.nil
  | cons a l ih =>
      intro hc hb
      cases l with
      | nil => simp
      | cons b t =>
          rw [List.chain'_cons] at hc
          obtain ⟨hab, hct⟩ := hc
          have hres := ih hct (fun x hx => hb x (List.mem_cons_of_mem a hx))
          refine List.Pairwise.cons ?_ hres
          intro c hc'
          have hav : validDate a.2.2 := (hb a (List.mem_cons_self _ _)).2.2
          have h1 : a.2.2.key < b.2.1.key := by
            rw [← hab]; exact key_lt_nextDay hav
          rcases List.mem_cons.mp hc' with rfl | hc2
          · rw [dateLt_true]; exact h1
          · have hbb : dateLe b.2.1 b.2.2 = true :=
              (hb b (by simp)).1
            have h2 : b.2.2.key < c.2.1.key := by
              have := (List.pairwise_cons.mp hres).1 c hc2
              rw [dateLt_true] at this; exact this
            rw [dateLe_true] at hbb
            rw [dateLt_true]
            omega

/-- C3: for every mode in none, month, year, and every pair of valid dates
with start <= end, the slices returned by `iter_time_slices` tile the
window exactly: the list is non-empty, its first slice starts at
start_date, its last slice ends at end_date, every slice is a well-formed
range, consecutive slices are adjacent (each starts the day after the
previous one ends — no gaps, no overlaps), and the slices are pairwise
disjoint in increasing order; in particular month-slicing the window
2024-01-01 to 2024-02-15 yields exactly
[("2024-01", 2024-01-01, 2024-01-31), ("2024-02", 2024-02-01, 2024-02-15)]. -/
theorem c3_time_slices_tiling :
    (∀ (mode : String) (s e : Date), mode ∈ ["none", "year", "month"] →
        validDate s → validDate e → dateLe s e = true →
        slicesCover (iterTimeSlicesD mode s e) s e ∧
        List.Pairwise (fun t u => dateLt t.2.2 u.2.1 = true)
          (iterTimeSlicesD mode s e)) ∧
    iter_time_slices "month" ⟨2024, 1, 1⟩ ⟨2024, 2, 15⟩ =
      [("2024-01", "2024-01-01", "2024-01-31"),
        ("2024-02", "2024-02-01", "2024-02-15")] := by
  constructor
  · intro mode s e hmode hs he hle
    rw [dateLe_true] at hle
    have hs1 : 1 ≤ s.m := hs.1
    have hs2 : s.m ≤ 12 := hs.2.1
    have hsd1 : 1 ≤ s.d := hs.2.2.1
    have hsk : s.key = s.y * 372 + s.m * 31 + s.d := key_eq s
    have hek : e.key = e.y * 372 + e.m * 31 + e.d := key_eq e
    have hcov : slicesCover (iterTimeSlicesD mode s e) s e := by
      simp only [List.mem_cons, List.not_mem_nil, or_false] at hmode
      rcases hmode with hm | hm | hm
      · subst hm
        rw [iterTimeSlicesD, if_pos rfl]
        refine ⟨rfl, rfl, ?_, ?_⟩
        · simp
        · intro t ht
          rcases List.mem_cons.mp ht with h | h
          · subst h
            exact ⟨dateLe_true.mpr hle, hs, he⟩
          · simp at h
      · subst hm
        rw [iterTimeSlicesD, if_neg (by decide), if_pos rfl]
        have := yearSlices_covers (e.y + 2 - s.y) s e s.y s.m hs he hs1 hs2
          (le_refl _) hle
          (by simp only [key_eq]; omega)
          (by omega)
        have hmax : maxD ⟨s.y, 1, 1⟩ s = s := by
          apply maxD_eq_right
          simp only [key_eq]; omega
        rwa [hmax] at this
      · subst hm
        rw [iterTimeSlicesD, if_neg (by decide), if_neg (by decide)]
        have := monthSlices_covers (e.key + 1) s e s.y s.m hs he hs1 hs2
          (le_refl _) hle
          (by simp only [key_eq]; omega)
          (by simp only [key_eq]; omega)
        have hmax : maxD ⟨s.y, s.m, 1⟩ s = s := by
          apply maxD_eq_right
          simp only [key_eq]; omega
        rwa [hmax] at this
    exact ⟨hcov, cover_pairwise _ hcov.2.2.1 hcov.2.2.2⟩
  · decide

theorem c3_time_slices_witness :
    slicesCover (iterTimeSlicesD "month" ⟨2024, 1, 1⟩ ⟨2024, 2, 15⟩)
        ⟨2024, 1, 1⟩ ⟨2024, 2, 15⟩ ∧
    List.Pairwise (fun t u => dateLt t.2.2 u.2.1 = true)
      (iterTimeSlicesD "month" ⟨2024, 1, 1⟩ ⟨2024, 2, 15⟩) :=
  c3_time_slices_tiling.1 "month" ⟨2024, 1, 1⟩ ⟨2024, 2, 15⟩
    (by decide) (validDate_mk.mpr (by decide)) (validDate_mk.mpr (by decide))
    (by decide)

theorem write_row_open {α : Type} (s : WriterState α) (row : α)
    (h : s.isOpen = true) (hlt : s.rows_in_part < s.max_rows_per_file) :
    write_row s row =
      { s with
        files := appendToLast s.files (CsvLine.data row),
        rows_in_part := s.rows_in_part + 1,
        total_rows := s.total_rows + 1 } := by
  simp [write_row, h, Nat.not_le.mpr hlt]

theorem appendToLast_concat {α : Type} (fs : List (String × List (CsvLine α)))
    (p : String) (l : List (CsvLine α)) (x : CsvLine α) :
    appendToLast (fs ++ [(p, l)]) x = fs ++ [(p, l ++ [x])] := by
  induction fs with
  | nil => rfl
  | cons f t ih =>
      cases t with
      | nil => simp [appendToLast]
      | cons g u =>
          simp only [List.cons_append, appendToLast]
          exact congrArg (fun z => f :: z) ih

theorem write_row_rotate {α : Type} (s : WriterState α) (row : α)
    (h : s.isOpen = true) (hfull : s.max_rows_per_file ≤ s.rows_in_part) :
    write_row s row =
      { s with
        part_index := s.part_index + 1,
        isOpen := true,
        files := s.files ++ [(splitName s.filename (s.part_index + 1),
          [CsvLine.header, CsvLine.data row])],
        rows_in_part := 1,
        total_rows := s.total_rows + 1 } := by
  simp [write_row, h, hfull, openNextFile, appendToLast_concat]

theorem write_row_first {α : Type} (s : WriterState α) (row : α)
    (h : s.isOpen = false) (hM : 0 < s.max_rows_per_file) :
    write_row s row =
      { s with
        part_index := s.part_index + 1,
        isOpen := true,
        files := s.files ++ [(splitName s.filename (s.part_index + 1),
          [CsvLine.header, CsvLine.data row])],
        rows_in_part := 1,
        total_rows := s.total_rows + 1 } := by
  simp [write_row, h, openNextFile, appendToLast_concat, Nat.not_le.mpr hM]

theorem write_rows_fill {α : Type} :
    ∀ (rows : List α) (s : WriterState α), s.isOpen = true →
      s.rows_in_part + rows.length ≤ s.max_rows_per_file →
      write_rows s rows =
        { s with
          files := rows.foldl (fun fs r => appendToLast fs (CsvLine.data r)) s.files,
          rows_in_part := s.rows_in_part + rows.length,
          total_rows := s.total_rows + rows.length } := by
  intro rows
  induction rows with
  | nil => intro s h hle; simp [write_rows]
  | cons r rs ih =>
      intro s h hle
      simp only [List.length_cons] at hle
      have hstep : write_rows s (r :: rs) = write_rows (write_row s r) rs := rfl
      rw [hstep, write_row_open s r h (by omega)]
      rw [ih]
      · simp only [List.foldl_cons, List.length_cons]
        congr 1 <;> omega
      · exact h
      · dsimp only
        omega

theorem foldl_appendToLast_concat {α : Type} :
    ∀ (cs : List α) (fs : List (String × List (CsvLine α))) (p : String)
      (l : List (CsvLine α)),
      cs.foldl (fun acc r => appendToLast acc (CsvLine.data r)) (fs ++ [(p, l)]) =
        fs ++ [(p, l ++ cs.map CsvLine.data)] := by
  intro cs
  induction cs with
  | nil => intro fs p l; simp
  | cons c cs2 ih =>
      intro fs p l
      simp only [List.foldl_cons, appendToLast_concat, List.map_cons]
      rw [ih]
      simp

theorem write_rows_open_chunk {α : Type} (s : WriterState α) (chunk : List α)
    (h : s.isOpen = false) (h1 : 1 ≤ chunk.length)
    (h2 : chunk.length ≤ s.max_rows_per_file) :
    write_rows s chunk =
      { s with
        part_index := s.part_index + 1,
        isOpen := true,
        files := s.files ++ [(splitName s.filename (s.part_index + 1),
          CsvLine.header :: chunk.map CsvLine.data)],
        rows_in_part := chunk.length,
        total_rows := s.total_rows + chunk.length } := by
  cases chunk with
  | nil => simp at h1
  | cons c cs =>
      simp only [List.length_cons] at h2
      have hstep : write_rows s (c :: cs) = write_rows (write_row s c) cs := rfl
      rw [hstep, write_row_first s c h (by omega)]
      rw [write_rows_fill cs]
      · simp only [foldl_appendToLast_concat]
        simp only [List.length_cons]
        congr 1 <;> omega
      · rfl
      · dsimp only
        omega

theorem write_rows_rotate_chunk {α : Type} (s : WriterState α) (chunk : List α)
    (h : s.isOpen = true) (hfull : s.max_rows_per_file ≤ s.rows_in_part)
    (h1 : 1 ≤ chunk.length) (h2 : chunk.length ≤ s.max_rows_per_file) :
    write_rows s chunk =
      { s with
        part_index := s.part_index + 1,
        isOpen := true,
        files := s.files ++ [(splitName s.filename (s.part_index + 1),
          CsvLine.header :: chunk.map CsvLine.data)],
        rows_in_part := chunk.length,
        total_rows := s.total_rows + chunk.length } := by
  cases chunk with
  | nil => simp at h1
  | cons c cs =>
      simp only [List.length_cons] at h2
      have hstep : write_rows s (c :: cs) = write_rows (write_row s c) cs := rfl
      rw [hstep, write_row_rotate s c h hfull]
      rw [write_rows_fill cs]
      · simp only [foldl_appendToLast_concat]
        simp only [List.length_cons]
        congr 1 <;> omega
      · rfl
      · dsimp only
        omega

theorem splitName_one (f : String) : splitName f 1 = f := by
  simp [splitName]

theorem dropWhile_no_dot {cs : List Char} (rest : List Char) (h : '.' ∉ cs) :
    (cs ++ '.' :: rest).dropWhile (fun c => c ≠ '.') = '.' :: rest := by
  induction cs with
  | nil => simp [List.dropWhile]
  | cons a t ih =>
      have ha : a ≠ '.' := fun e => h (e ▸ List.mem_cons_self _ _)
      simp only [List.cons_append, List.dropWhile_cons]
      rw [if_pos (by simp [ha])]
      exact ih (fun hm => h (List.mem_cons_of_mem _ hm))

theorem takeWhile_no_dot {cs : List Char} (rest : List Char) (h : '.' ∉ cs) :
    (cs ++ '.' :: rest).takeWhile (fun c => c ≠ '.') = cs := by
  induction cs with
  | nil => simp [List.takeWhile]
  | cons a t ih =>
      have ha : a ≠ '.' := fun e => h (e ▸ List.mem_cons_self _ _)
      simp only [List.cons_append, List.takeWhile_cons]
      rw [if_pos (by simp [ha])]
      rw [ih (fun hm => h (List.mem_cons_of_mem _ hm))]

theorem splitExtChars_append (bs xs : List Char) (hx : '.' ∉ xs) :
    splitExtChars (bs ++ '.' :: xs) = some (bs, xs) := by
  unfold splitExtChars
  have hrev : (bs ++ '.' :: xs).reverse = xs.reverse ++ '.' :: bs.reverse := by
    simp
  rw [hrev]
  dsimp only
  have hx' : '.' ∉ xs.reverse := by simpa using hx
  rw [dropWhile_no_dot bs.reverse hx', takeWhile_no_dot bs.reverse hx']
  simp

theorem splitName_suffix (base ext : String) (k : Nat) (hx : '.' ∉ ext.data)
    (hk : k ≠ 1) :
    splitName (base ++ "." ++ ext) k = base ++ "_part" ++ pad3 k ++ "." ++ ext := by
  unfold splitName
  have hdata : (base ++ "." ++ ext).data = base.data ++ '.' :: ext.data := by
    simp [String.data_append]
  rw [hdata, splitExtChars_append base.data ext.data hx, if_neg hk]
  apply String.ext
  simp [String.data_append]

theorem write_rows_append {α : Type} (s : WriterState α) (l1 l2 : List α) :
    write_rows s (l1 ++ l2) = write_rows (write_rows s l1) l2 := by
  simp [write_rows, List.foldl_append]

/-- C8 (corrected): the claimed shape holds for max_rows_per_file M >= 5
(for M < 5 the third batch of 5 rows itself overflows into further parts,
so the claim's universal "for every M > 0" fails): writing exactly 2*M+5
rows through a fresh rotating writer creates exactly 3 part files holding
M, M and 5 data rows, each beginning with the header row; the first part
uses the base filename unchanged, later parts carry a zero-padded
`_partNNN` suffix before the extension, and the parts' data rows
concatenate to exactly the input rows — none lost, none duplicated. -/
theorem c8_rotating_writer_amended :
    (∀ (α : Type) (filename : String) (M : Nat) (rows : List α),
        5 ≤ M → rows.length = 2 * M + 5 →
        (write_rows (initWriter α filename M) rows).files =
          [(filename, CsvLine.header :: (rows.take M).map CsvLine.data),
            (splitName filename 2,
              CsvLine.header :: ((rows.drop M).take M).map CsvLine.data),
            (splitName filename 3,
              CsvLine.header :: (rows.drop (2 * M)).map CsvLine.data)] ∧
        (write_rows (initWriter α filename M) rows).total_rows = 2 * M + 5 ∧
        rows.take M ++ ((rows.drop M).take M ++ rows.drop (2 * M)) = rows) ∧
    (∀ f : String, splitName f 1 = f) ∧
    (∀ (base ext : String) (k : Nat), '.' ∉ ext.data → k ≠ 1 →
        splitName (base ++ "." ++ ext) k =
          base ++ "_part" ++ pad3 k ++ "." ++ ext) := by
  refine ⟨?_, splitName_one, splitName_suffix⟩
  intro α filename M rows hM hlen
  have hA : (rows.take M).length = M := by
    rw [List.length_take]; omega
  have hB : ((rows.drop M).take M).length = M := by
    rw [List.length_take, List.length_drop]; omega
  have hC : (rows.drop (2 * M)).length = 5 := by
    rw [List.length_drop]; omega
  have hconcat : rows.take M ++ ((rows.drop M).take M ++ rows.drop (2 * M))
      = rows := by
    have h2 : (rows.drop M).take M ++ (rows.drop M).drop M = rows.drop M :=
      List.take_append_drop M (rows.drop M)
    have h3 : (rows.drop M).drop M = rows.drop (2 * M) := by
      rw [List.drop_drop]; congr 1; omega
    rw [← h3, h2, List.take_append_drop]
  have heq : write_rows (initWriter α filename M) rows =
      write_rows (write_rows (write_rows (initWriter α filename M)
        (rows.take M)) ((rows.drop M).take M)) (rows.drop (2 * M)) := by
    conv_lhs => rw [hconcat.symm]
    rw [write_rows_append, write_rows_append]
  have h1 : write_rows (initWriter α filename M) (rows.take M) =
      ⟨filename, M, true, M, 1, M,
        [(filename, CsvLine.header :: (rows.take M).map CsvLine.data)]⟩ := by
    rw [write_rows_open_chunk (initWriter α filename M) (rows.take M) rfl
      (by omega) (by rw [hA]; exact Nat.le_refl M)]
    simp [initWriter, splitName_one, hA]
  have h2 : write_rows
      (⟨filename, M, true, M, 1, M,
        [(filename, CsvLine.header :: (rows.take M).map CsvLine.data)]⟩ :
          WriterState α) ((rows.drop M).take M) =
      ⟨filename, M, true, M, 2, M + M,
        [(filename, CsvLine.header :: (rows.take M).map CsvLine.data),
          (splitName filename 2,
            CsvLine.header :: ((rows.drop M).take M).map CsvLine.data)]⟩ := by
    rw [write_rows_rotate_chunk _ _ rfl (Nat.le_refl M)
      (by rw [hB]; omega) (by rw [hB])]
    simp [hB]
  have h3 : write_rows
      (⟨filename, M, true, M, 2, M + M,
        [(filename, CsvLine.header :: (rows.take M).map CsvLine.data),
          (splitName filename 2,
            CsvLine.header :: ((rows.drop M).take M).map CsvLine.data)]⟩ :
          WriterState α) (rows.drop (2 * M)) =
      ⟨filename, M, true, 5, 3, M + M + 5,
        [(filename, CsvLine.header :: (rows.take M).map CsvLine.data),
          (splitName filename 2,
            CsvLine.header :: ((rows.drop M).take M).map CsvLine.data),
          (splitName filename 3,
            CsvLine.header :: (rows.drop (2 * M)).map CsvLine.data)]⟩ := by
    rw [write_rows_rotate_chunk _ _ rfl (Nat.le_refl M)
      (by rw [hC]; omega) (by rw [hC]; exact hM)]
    simp [hC]
  rw [heq, h1, h2, h3]
  exact ⟨rfl, by dsimp only; omega, hconcat⟩

theorem c8_rotating_writer_witness :
    ((write_rows (initWriter Nat "out.csv" 5)
        [0, 1, 2, 3, 4, 5, 6, 7, 8, 9, 10, 11, 12, 13, 14]).files =
      [("out.csv", CsvLine.header ::
          (([0, 1, 2, 3, 4, 5, 6, 7, 8, 9, 10, 11, 12, 13, 14].take 5).map
            CsvLine.data)),
        (splitName "out.csv" 2, CsvLine.header ::
          ((([0, 1, 2, 3, 4, 5, 6, 7, 8, 9, 10, 11, 12, 13, 14].drop 5).take 5).map
            CsvLine.data)),
        (splitName "out.csv" 3, CsvLine.header ::
          (([0, 1, 2, 3, 4, 5, 6, 7, 8, 9, 10, 11, 12, 13, 14].drop (2 * 5)).map
            CsvLine.data))] ∧
      (write_rows (initWriter Nat "out.csv" 5)
        [0, 1, 2, 3, 4, 5, 6, 7, 8, 9, 10, 11, 12, 13, 14]).total_rows = 2 * 5 + 5 ∧
      [0, 1, 2, 3, 4, 5, 6, 7, 8, 9, 10, 11, 12, 13, 14].take 5 ++
        (([0, 1, 2, 3, 4, 5, 6, 7, 8, 9, 10, 11, 12, 13, 14].drop 5).take 5 ++
          [0, 1, 2, 3, 4, 5, 6, 7, 8, 9, 10, 11, 12, 13, 14].drop (2 * 5)) =
        [0, 1, 2, 3, 4, 5, 6, 7, 8, 9, 10, 11, 12, 13, 14]) ∧
    splitName ("out" ++ "." ++ "csv") 2 = "out" ++ "_part" ++ pad3 2 ++ "." ++ "csv" :=
  ⟨c8_rotating_writer_amended.1 Nat "out.csv" 5
      [0, 1, 2, 3, 4, 5, 6, 7, 8, 9, 10, 11, 12, 13, 14] (by decide) (by decide),
   c8_rotating_writer_amended.2.2 "out" "csv" 2 (by decide) (by decide)⟩

/-- C8 counterexample: with max_rows_per_file = 1 (allowed by the claim's
"for every M > 0"), writing 2*1+5 = 7 rows creates 7 part files of one row
each, not 3 parts of sizes 1, 1, 5. -/
theorem c8_rotating_writer_counterexample :
    ((write_rows (initWriter Nat "out.csv" 1) [0, 1, 2, 3, 4, 5, 6]).files).length
      ≠ 3 := by decide

/-- C4: in every successful non-empty page iteration, the offset advances
by exactly the number of items received from the server — both when the
walk continues and when a short page ends it — irrespective of how many
rows the client-side filter lets through to the writer. -/
theorem c4_offset_advances_by_received :
    ∀ {Item : Type} (fetch : Nat → Bool → FetchResult Item) (keep : Item → Bool)
      (updatedFrom : Bool) (mode : FilterMode) (limit : Nat) (s : WalkState)
      (data : List Item),
      fetch s.skip s.useServerFilter = .ok data → data ≠ [] →
      (walkStep fetch keep updatedFrom mode limit s).offset =
        some (s.skip + data.length) := by
  intro Item fetch keep updatedFrom mode limit s data hf hne
  have hemp : data.isEmpty = false := by
    cases data with
    | nil => exact absurd rfl hne
    | cons a l => rfl
  simp only [walkStep, hf, hemp, Bool.false_eq_true, if_false]
  split
  · rfl
  · rfl

theorem c4_offset_witness :
    (walkStep (fun _ _ => FetchResult.ok [0, 1]) (fun _ => false) true
        FilterMode.client 2 ⟨0, 0, 1, 0, false, true⟩).offset = some (0 + 2) :=
  c4_offset_advances_by_received (fun _ _ => FetchResult.ok [0, 1])
    (fun _ => false) true FilterMode.client 2 ⟨0, 0, 1, 0, false, true⟩ [0, 1]
    rfl (by decide)

theorem walkStep_no_revert {Item : Type}
    {fetch : Nat → Bool → FetchResult Item} {keep : Item → Bool}
    {updatedFrom : Bool} {mode : FilterMode} {limit : Nat}
    {b c : WalkState} {rows : List Item}
    (h : walkStep fetch keep updatedFrom mode limit b = .next c rows)
    (hb : b.useServerFilter = false) : c.useServerFilter = false := by
  unfold walkStep at h
  rcases hf : fetch b.skip b.useServerFilter with data | status | _ <;>
    rw [hf] at h <;> dsimp only at h
  · split_ifs at h
    injection h with h1 _
    subst h1
    exact hb
  · split_ifs at h <;> injection h with h1 _ <;> subst h1 <;>
      first | rfl | exact hb
  · split_ifs at h
    injection h with h1 _
    subst h1
    exact hb

/-- C5: in automatic filter mode with the server-side updated-since filter
active, a 504 response makes the very same iteration continue with the
server-side clause disabled, client-side filtering enabled, the offset
unchanged and nothing written; and once the server-filter flag is off it
stays off in every later state of the same partition/slice walk. -/
theorem c5_filter_fallback_one_way :
    (∀ {Item : Type} (fetch : Nat → Bool → FetchResult Item)
        (keep : Item → Bool) (mode : FilterMode) (limit : Nat) (s : WalkState),
        fetch s.skip s.useServerFilter = .httpErr 504 →
        mode = .auto → s.useServerFilter = true →
        walkStep fetch keep true mode limit s =
          .next { s with useServerFilter := false, useClientFilter := true } []) ∧
    (∀ {Item : Type} (fetch : Nat → Bool → FetchResult Item)
        (keep : Item → Bool) (updatedFrom : Bool) (mode : FilterMode)
        (limit : Nat) (a b : WalkState),
        a.useServerFilter = false →
        Reach fetch keep updatedFrom mode limit a b →
        b.useServerFilter = false) := by
  constructor
  · intro Item fetch keep mode limit s hf hmode hs
    subst hmode
    simp only [walkStep]
    rw [hf]
    simp [hs]
  · intro Item fetch keep updatedFrom mode limit a b ha hreach
    induction hreach with
    | refl => exact ha
    | step y z rows hr hstep ih => exact walkStep_no_revert hstep ih

theorem c5_filter_fallback_witness :
    walkStep (fun _ _ => FetchResult.httpErr 504) (fun _ : Nat => true) true
        FilterMode.auto 30 ⟨60, 12, 3, 0, true, false⟩ =
      .next ⟨60, 12, 3, 0, false, true⟩ [] ∧
    (⟨0, 0, 1, 0, false, true⟩ : WalkState).useServerFilter = false :=
  ⟨c5_filter_fallback_one_way.1 (fun _ _ => FetchResult.httpErr 504)
      (fun _ : Nat => true) FilterMode.auto 30 ⟨60, 12, 3, 0, true, false⟩
      rfl rfl rfl,
   c5_filter_fallback_one_way.2 (fun _ _ => FetchResult.netErr)
      (fun _ : Nat => true) true FilterMode.auto 30 ⟨0, 0, 1, 0, false, true⟩
      ⟨0, 0, 1, 0, false, true⟩ rfl (Reach.refl _)⟩

/-- C7: on a resume run, a stored entry with done=true makes the pair be
skipped entirely (no fetch); otherwise a stored entry resumes the walk
exactly at its saved offset (in particular at any next_offset > 0); and
with no stored entry the walk starts at offset 0. -/
theorem c7_resume_decision_cases :
    (∀ n : Nat, resume_decision true (some ⟨n, true⟩) = .skipSlice) ∧
    (∀ n : Nat, resume_decision true (some ⟨n, false⟩) = .startAt n) ∧
    resume_decision true none = .startAt 0 :=
  ⟨fun n => rfl, fun n => rfl, rfl⟩

theorem runWalk_next {Item : Type} {dataset : List Item} {limit : Nat}
    {keep : Item → Bool} {uf : Bool} {mode : FilterMode} {s c : WalkState}
    {rows : List Item}
    (h : walkStep (dsFetch dataset limit) keep uf mode limit s = .next c rows) :
    runWalk dataset limit keep uf mode s = runWalk dataset limit keep uf mode c := by
  rw [runWalk]
  split
  · rename_i s2 rows2 heq
    rw [h] at heq
    injection heq with h1 _
    rw [h1]
  · rename_i s2 heq
    rw [h] at heq
    simp at heq
  · rename_i heq
    rw [h] at heq
    simp at heq

theorem runWalk_done {Item : Type} {dataset : List Item} {limit : Nat}
    {keep : Item → Bool} {uf : Bool} {mode : FilterMode} {s c : WalkState}
    (h : walkStep (dsFetch dataset limit) keep uf mode limit s = .done c) :
    runWalk dataset limit keep uf mode s = c := by
  rw [runWalk]
  split
  · rename_i s2 rows2 heq
    rw [h] at heq
    simp at heq
  · rename_i s2 heq
    rw [h] at heq
    injection heq with h1
    rw [h1]
  · rename_i heq
    rw [h] at heq
    simp at heq

theorem dsStep_empty {Item : Type} {dataset : List Item} {limit : Nat}
    {keep : Item → Bool} {uf : Bool} {mode : FilterMode} {s : WalkState}
    (h : (List.take limit (List.drop s.skip dataset)).isEmpty = true) :
    walkStep (dsFetch dataset limit) keep uf mode limit s =
      .done { s with consecutiveErrors := 0 } := by
  simp only [walkStep, dsFetch]
  rw [if_pos h]

theorem dsStep_short {Item : Type} {dataset : List Item} {limit : Nat}
    {keep : Item → Bool} {uf : Bool} {mode : FilterMode} {s : WalkState}
    (hne : ¬ (List.take limit (List.drop s.skip dataset)).isEmpty = true)
    (hlt : (List.take limit (List.drop s.skip dataset)).length < limit) :
    walkStep (dsFetch dataset limit) keep uf mode limit s =
      .done { s with
        skip := s.skip + (List.take limit (List.drop s.skip dataset)).length,
        totalWritten := s.totalWritten +
          ((List.take limit (List.drop s.skip dataset)).filter
            (fun it => !s.useClientFilter || keep it)).length,
        consecutiveErrors := 0 } := by
  simp only [walkStep, dsFetch]
  rw [if_neg hne, if_pos hlt]

theorem dsStep_full {Item : Type} {dataset : List Item} {limit : Nat}
    {keep : Item → Bool} {uf : Bool} {mode : FilterMode} {s : WalkState}
    (hne : ¬ (List.take limit (List.drop s.skip dataset)).isEmpty = true)
    (hge : ¬ (List.take limit (List.drop s.skip dataset)).length < limit) :
    walkStep (dsFetch dataset limit) keep uf mode limit s =
      .next { s with
        skip := s.skip + (List.take limit (List.drop s.skip dataset)).length,
        totalWritten := s.totalWritten +
          ((List.take limit (List.drop s.skip dataset)).filter
            (fun it => !s.useClientFilter || keep it)).length,
        batchCount := s.batchCount + 1,
        consecutiveErrors := 0 }
        ((List.take limit (List.drop s.skip dataset)).filter
          (fun it => !s.useClientFilter || keep it)) := by
  simp only [walkStep, dsFetch]
  rw [if_neg hne, if_neg hge]

theorem runWalk_total_shift {Item : Type} (dataset : List Item) (limit : Nat)
    (keep : Item → Bool) (uf : Bool) (mode : FilterMode) :
    ∀ (n : Nat) (s t : WalkState), dataset.length + 1 - s.skip ≤ n →
      s.skip = t.skip → s.useClientFilter = t.useClientFilter →
      (runWalk dataset limit keep uf mode s).totalWritten + t.totalWritten =
        (runWalk dataset limit keep uf mode t).totalWritten + s.totalWritten := by
  intro n
  induction n with
  | zero =>
      intro s t hn hskip hcl
      have hemp : (List.take limit (List.drop s.skip dataset)).isEmpty = true := by
        rw [List.isEmpty_iff, List.drop_eq_nil_of_le (by omega), List.take_nil]
      have hemp2 : (List.take limit (List.drop t.skip dataset)).isEmpty = true := by
        rw [← hskip]; exact hemp
      rw [runWalk_done (dsStep_empty hemp), runWalk_done (dsStep_empty hemp2)]
      dsimp only
      omega
  | succ n ih =>
      intro s t hn hskip hcl
      by_cases hemp : (List.take limit (List.drop s.skip dataset)).isEmpty = true
      · have hemp2 : (List.take limit (List.drop t.skip dataset)).isEmpty = true := by
          rw [← hskip]; exact hemp
        rw [runWalk_done (dsStep_empty hemp), runWalk_done (dsStep_empty hemp2)]
        dsimp only
        omega
      · have hemp2 : ¬ (List.take limit (List.drop t.skip dataset)).isEmpty = true := by
          rw [← hskip]; exact hemp
        have hL : 0 < (List.take limit (List.drop s.skip dataset)).length := by
          rw [List.length_pos]
          simpa [List.isEmpty_iff] using hemp
        by_cases hlt : (List.take limit (List.drop s.skip dataset)).length < limit
        · have hlt2 : (List.take limit (List.drop t.skip dataset)).length < limit := by
            rw [← hskip]; exact hlt
          rw [runWalk_done (dsStep_short hemp hlt),
            runWalk_done (dsStep_short hemp2 hlt2)]
          dsimp only
          rw [← hskip, ← hcl]
          omega
        · have hge2 : ¬ (List.take limit (List.drop t.skip dataset)).length < limit := by
            rw [← hskip]; exact hlt
          rw [runWalk_next (dsStep_full hemp hlt),
            runWalk_next (dsStep_full hemp2 hge2)]
          have hrec := ih
            { s with
              skip := s.skip + (List.take limit (List.drop s.skip dataset)).length,
              totalWritten := s.totalWritten +
                ((List.take limit (List.drop s.skip dataset)).filter
                  (fun it => !s.useClientFilter || keep it)).length,
              batchCount := s.batchCount + 1,
              consecutiveErrors := 0 }
            { t with
              skip := t.skip + (List.take limit (List.drop t.skip dataset)).length,
              totalWritten := t.totalWritten +
                ((List.take limit (List.drop t.skip dataset)).filter
                  (fun it => !t.useClientFilter || keep it)).length,
              batchCount := t.batchCount + 1,
              consecutiveErrors := 0 }
            (by dsimp only; rw [List.length_take, List.length_drop] at hL ⊢; omega)
            (by dsimp only; rw [hskip])
            (by dsimp only; rw [hcl])
          dsimp only at hrec
          rw [← hskip, ← hcl] at hrec
          rw [← hskip, ← hcl]
          omega

theorem reach_ds_flags {Item : Type} {dataset : List Item} {limit : Nat}
    {keep : Item → Bool} {uf : Bool} {mode : FilterMode} {a b : WalkState}
    (h : Reach (dsFetch dataset limit) keep uf mode limit a b) :
    b.useServerFilter = a.useServerFilter ∧ b.useClientFilter = a.useClientFilter := by
  induction h with
  | refl => exact ⟨rfl, rfl⟩
  | step y z rows hr hstep ih =>
      have hz : z.useServerFilter = y.useServerFilter ∧
          z.useClientFilter = y.useClientFilter := by
        simp only [walkStep, dsFetch] at hstep
        split_ifs at hstep
        injection hstep with h1 _
        subst h1
        exact ⟨rfl, rfl⟩
      exact ⟨hz.1.trans ih.1, hz.2.trans ih.2⟩

theorem runWalk_reach {Item : Type} {dataset : List Item} {limit : Nat}
    {keep : Item → Bool} {uf : Bool} {mode : FilterMode} {a b : WalkState}
    (h : Reach (dsFetch dataset limit) keep uf mode limit a b) :
    runWalk dataset limit keep uf mode a = runWalk dataset limit keep uf mode b := by
  induction h with
  | refl => rfl
  | step y z rows hr hstep ih => exact ih.trans (runWalk_next hstep)

/-- C6: against a stable upstream dataset, for every offset K saved while
walking from offset 0 (the saved states are exactly those reachable from
the initial state), the rows already written when K was saved plus the
rows written by a fresh walk resumed from K equal the rows written by one
uninterrupted walk from offset 0 — no record lost, none duplicated. -/
theorem c6_resume_continuation :
    ∀ {Item : Type} (dataset : List Item) (limit : Nat) (keep : Item → Bool)
      (uf : Bool) (mode : FilterMode) (s : WalkState),
      Reach (dsFetch dataset limit) keep uf mode limit
        (initWalk limit 0 uf mode) s →
      s.totalWritten +
        (runWalk dataset limit keep uf mode
          (initWalk limit s.skip uf mode)).totalWritten =
        (runWalk dataset limit keep uf mode
          (initWalk limit 0 uf mode)).totalWritten := by
  intro Item dataset limit keep uf mode s h
  have hflags := reach_ds_flags h
  have hrun := runWalk_reach h
  rw [hrun]
  have hcl : s.useClientFilter = (initWalk limit s.skip uf mode).useClientFilter := by
    simpa [initWalk] using hflags.2
  have hshift := runWalk_total_shift dataset limit keep uf mode
    (dataset.length + 1 - s.skip) s (initWalk limit s.skip uf mode)
    (le_refl _) (by simp [initWalk]) hcl
  have h0 : (initWalk limit s.skip uf mode).totalWritten = 0 := rfl
  rw [h0] at hshift
  omega

theorem c6_resume_continuation_witness :
    (⟨1, 1, 2, 0, false, false⟩ : WalkState).totalWritten +
      (runWalk [10, 20, 30] 1 (fun _ => true) false FilterMode.server
        (initWalk 1 1 false FilterMode.server)).totalWritten =
      (runWalk [10, 20, 30] 1 (fun _ => true) false FilterMode.server
        (initWalk 1 0 false FilterMode.server)).totalWritten :=
  c6_resume_continuation [10, 20, 30] 1 (fun _ => true) false FilterMode.server
    ⟨1, 1, 2, 0, false, false⟩
    (Reach.step _ _ _ [10] (Reach.refl _) (by decide))
